import Mathlib

/-!
Shallow embedding of the `roomdust` WAD-archive reader, overlay stack, and
picture (patch) decoder, translated from the Rust sources:

  * `src/assets/wad/file.rs` — `WadFile` and its name/positional lump queries
  * `src/wad/stack.rs`       — `WadStack`, the overlay stack over `Wad` sources
  * `src/assets/patch.rs`    — `Patch::load` picture decoder and `PatchBank::load`

Bytes are modelled as `Nat` (a real input file always supplies values `< 256`);
machine-integer arithmetic that can overflow (`u16` addition in the tall-patch
rule) is modelled with an explicit `% 2 ^ 16`, matching Rust release-build
(wrapping) semantics. Fallible code returns `Except`.
-/

/-- A lump: a named byte buffer (`Lump { name, data }` in the wad module;
constructed in `WadFile::read_lumps`). -/
structure Lump where
  name : String
  data : List Nat
deriving DecidableEq, Repr

instance : Inhabited Lump := ⟨⟨"", []⟩⟩

/-- Errors of the wad module, as constructed by the code under `src/`:
`wad::Error::malformed(path, desc)` and `wad::Error::WrongType` in
`file.rs`, and `Lump::error` (see `Lump.error` below). -/
inductive WadError where
  | malformed (path : String) (desc : String)
  | malformedLump (lumpName : String) (desc : String)
  | wrongType (path : String)
deriving DecidableEq, Repr

/-- Modelled from the spec: `Lump::error` lives in the wad module, which is
not under `src/`; per §7 a `Malformed` error from lump decoding carries "the
specific lump name, to make diagnosis possible", so the model scopes the
error to the lump's name. -/
def Lump.error (l : Lump) (desc : String) : WadError :=
  .malformedLump l.name desc

/-- A single WAD file: its path, and its lumps in on-disk directory order
(`WadFile { path, kind, lumps, lump_indices }`; `kind` is not needed by any
claim and the index multimap is recovered by `lumpIndices` below). -/
structure WadFile where
  path : String
  lumps : List Lump
deriving DecidableEq, Repr

/-- Directory-order indices of the lumps named `name`, starting the count at
`i0`.  `WadFile::build_indices` pushes each directory index onto the entry
for its name, so the stored multimap value for `name` is exactly this
ascending index list (and a name is absent from the map iff the list is
empty). -/
def indicesOf (name : String) : List Lump → Nat → List Nat
  | [], _ => []
  | l :: ls, i =>
    if l.name = name then i :: indicesOf name ls (i + 1) else indicesOf name ls (i + 1)

namespace WadFile

/-- The multimap lookup `self.lump_indices.get(name)`, with `None` modelled
as the empty list. -/
def lumpIndices (w : WadFile) (name : String) : List Nat :=
  indicesOf name w.lumps 0

/-- Creates a `wad::Error::Malformed` blaming this file (`WadFile::error`). -/
def error (w : WadFile) (desc : String) : WadError :=
  .malformed w.path desc

/-- Models `WadFile::try_lump_index`: looks up a lump's index; erroring if the name
is not unique. -/
def tryLumpIndex (w : WadFile) (name : String) : Except WadError (Option Nat) :=
  match w.lumpIndices name with
  | [] => .ok none
  | [i] => .ok (some i)
  | is => .error (w.error (name ++ " found " ++ toString is.length ++ " times"))

/-- Models `WadFile::try_lump`: retrieves a unique lump by name, `none` if missing. -/
def tryLump (w : WadFile) (name : String) : Except WadError (Option Lump) :=
  match w.tryLumpIndex name with
  | .error e => .error e
  | .ok none => .ok none
  | .ok (some i) => .ok (some (w.lumps.getD i default))

/-- Models `WadFile::lump`: retrieves a unique lump by name, erroring if missing. -/
def lump (w : WadFile) (name : String) : Except WadError Lump :=
  match w.tryLump name with
  | .error e => .error e
  | .ok none => .error (w.error (name ++ " missing"))
  | .ok (some l) => .ok l

/-- Models `WadFile::try_lumps_following`: a block of `size` lumps starting at a
unique marker.  The source begins with `assert!(size > 0)` (it panics when
`size == 0`), so the model is only quoted at `size ≥ 1` by the theorems
below. -/
def tryLumpsFollowing (w : WadFile) (start : String) (size : Nat) :
    Except WadError (Option (List Lump)) :=
  match w.tryLumpIndex start with
  | .error e => .error e
  | .ok none => .ok none
  | .ok (some startIndex) =>
    if startIndex + size ≥ w.lumps.length then
      .error (w.error (start ++ " missing lumps"))
    else
      .ok (some ((w.lumps.drop startIndex).take size))

/-- Models `WadFile::lumps_following`: as `try_lumps_following`, erroring if the
marker is missing. -/
def lumpsFollowing (w : WadFile) (start : String) (size : Nat) :
    Except WadError (List Lump) :=
  match w.tryLumpsFollowing start size with
  | .error e => .error e
  | .ok none => .error (w.error (start ++ " missing"))
  | .ok (some ls) => .ok ls

/-- Models `WadFile::try_lumps_between`: the inclusive block of lumps between two
unique markers. -/
def tryLumpsBetween (w : WadFile) (start stop : String) :
    Except WadError (Option (List Lump)) :=
  match w.tryLumpIndex start with
  | .error e => .error e
  | .ok startIndex =>
    match w.tryLumpIndex stop with
    | .error e => .error e
    | .ok stopIndex =>
      match startIndex, stopIndex with
      | some s, some e =>
        if s > e then
          .error (w.error (start ++ " after " ++ stop))
        else
          .ok (some ((w.lumps.drop s).take (e + 1 - s)))
      | none, none => .ok none
      | some _, none => .error (w.error (start ++ " without " ++ stop))
      | none, some _ => .error (w.error (stop ++ " without " ++ start))

/-- Models `WadFile::lumps_between`: as `try_lumps_between`, erroring if both
markers are missing. -/
def lumpsBetween (w : WadFile) (start stop : String) :
    Except WadError (List Lump) :=
  match w.tryLumpsBetween start stop with
  | .error e => .error e
  | .ok none => .error (w.error (start ++ " and " ++ stop ++ " missing"))
  | .ok (some ls) => .ok ls

end WadFile

/-! ### Picture (patch) decoder, from `src/assets/patch.rs` -/

/-- One vertical run of pixels (`Post { y_offset, pixels }`); `pixels` is the
zero-copy slice `lump.data()[start..end]`, modelled by value. -/
structure Post where
  y : Nat
  pixels : List Nat
deriving DecidableEq, Repr

/-- A column of posts (`Column { posts }`). -/
structure Column where
  posts : List Post
deriving DecidableEq, Repr

instance : Inhabited Column := ⟨⟨[]⟩⟩

/-- A decoded picture (`Patch { name, width, height, top, left, columns }`;
the source reads `top` before `left`). -/
structure Patch where
  name : String
  width : Nat
  height : Nat
  top : Int
  left : Int
  columns : List Column
deriving DecidableEq, Repr

instance : Inhabited Patch := ⟨⟨"", 0, 0, 0, 0, []⟩⟩

/-- Models `cursor.read_u8()`: the byte at the cursor, and the advanced cursor;
`UnexpectedEof` (modelled as `Except.error ()`) past the end. -/
def readU8 (data : List Nat) (pos : Nat) : Except Unit (Nat × Nat) :=
  match data.get? pos with
  | some b => .ok (b, pos + 1)
  | none => .error ()

/-- Models `cursor.read_u16::<LittleEndian>()`. -/
def readU16 (data : List Nat) (pos : Nat) : Except Unit (Nat × Nat) :=
  match readU8 data pos with
  | .error e => .error e
  | .ok (lo, pos) =>
    match readU8 data pos with
    | .error e => .error e
    | .ok (hi, pos) => .ok (lo + 256 * hi, pos)

/-- Models `cursor.read_i16::<LittleEndian>()`: the two's-complement value of the
16-bit little-endian word at the cursor. -/
def readI16 (data : List Nat) (pos : Nat) : Except Unit (Int × Nat) :=
  match readU16 data pos with
  | .error e => .error e
  | .ok (v, pos) =>
    .ok (if v < 32768 then (v : Int) else (v : Int) - 65536, pos)

/-- Models `cursor.read_u32::<LittleEndian>()`. -/
def readU32 (data : List Nat) (pos : Nat) : Except Unit (Nat × Nat) :=
  match readU16 data pos with
  | .error e => .error e
  | .ok (lo, pos) =>
    match readU16 data pos with
    | .error e => .error e
    | .ok (hi, pos) => .ok (lo + 65536 * hi, pos)

/-- Models `data.get(start..stop)` on a Rust slice: `Some` exactly when
`start ≤ stop ≤ data.len()`. -/
def sliceGet (data : List Nat) (start stop : Nat) : Option (List Nat) :=
  if start ≤ stop ∧ stop ≤ data.length then
    some ((data.drop start).take (stop - start))
  else
    none

/-- The y-offset resolution of one post in `Patch::load`, from the arms of
its `match` on `(cursor.read_u8()? as u16, last_y_offset)`: with no previous
post the raw byte is absolute; otherwise a raw byte `≤` the previous
resolved offset is added to it (`u16` wrapping addition, hence `% 2 ^ 16`)
and a greater raw byte is absolute.  This is also the tall-patch rule as the
spec states it (§4.3). -/
def resolveY (prev : Option Nat) (b : Nat) : Nat :=
  match prev with
  | some ly => if b ≤ ly then (ly + b) % 2 ^ 16 else b
  | none => b

/-- The post-reading loop of `Patch::load`, started at a column's offset.
Returns the posts and the final cursor position.  `fuel` bounds the
iteration count; each iteration advances the cursor by at least four and
must start in bounds, so `data.length + 1` iterations (the callers' fuel)
can never be exhausted — running out is modelled as an EOF error.

Per iteration: read the raw y-offset byte (`255` terminates the column);
resolve it by the tall-patch rule — absolute for the first post, and for
later posts a delta added to the previous *resolved* offset whenever the
raw byte is `≤` that offset (`u16` wrapping addition, hence `% 2 ^ 16`) —
then read the length byte, a padding byte, slice `length` pixel bytes
directly out of the lump, and read a trailing padding byte. -/
def readPosts : Nat → List Nat → Nat → Option Nat → Except Unit (List Post × Nat)
  | 0, _, _, _ => .error ()
  | fuel + 1, data, pos, lastY =>
    match readU8 data pos with
    | .error e => .error e
    | .ok (b, pos) =>
      if b = 255 then
        .ok ([], pos)
      else
        let y := resolveY lastY b
        match readU8 data pos with
        | .error e => .error e
        | .ok (length, pos) =>
          match readU8 data pos with
          | .error e => .error e
          | .ok (_, pos) =>
            let start := pos
            let stop := pos + length
            match sliceGet data start stop with
            | none => .error ()
            | some pixels =>
              match readU8 data stop with
              | .error e => .error e
              | .ok (_, pos) =>
                match readPosts fuel data pos (some y) with
                | .error e => .error e
                | .ok (rest, endPos) => .ok (⟨y, pixels⟩ :: rest, endPos)

/-- One iteration of the column loop of `Patch::load`:
`cursor.seek(SeekFrom::Start(column_offset))` followed by the post loop. -/
def readColumn (data : List Nat) (off : Nat) : Except Unit Column :=
  match readPosts (data.length + 1) data off none with
  | .error e => .error e
  | .ok (posts, _) => .ok ⟨posts⟩

/-- The column loop of `Patch::load` over the decoded column offsets. -/
def readColumns (data : List Nat) : List Nat → Except Unit (List Column)
  | [] => .ok []
  | off :: offs =>
    match readColumn data off with
    | .error e => .error e
    | .ok c =>
      match readColumns data offs with
      | .error e => .error e
      | .ok cs => .ok (c :: cs)

/-- The column-offset loop of `Patch::load`: `width` little-endian `u32`
reads from the cursor. -/
def readColumnOffsets (data : List Nat) : Nat → Nat → Except Unit (List Nat × Nat)
  | pos, 0 => .ok ([], pos)
  | pos, n + 1 =>
    match readU32 data pos with
    | .error e => .error e
    | .ok (off, pos) =>
      match readColumnOffsets data pos n with
      | .error e => .error e
      | .ok (offs, pos) => .ok (off :: offs, pos)

/-- The body of `Patch::load`'s IIFE: header (width, height, top, left),
column offsets, then the columns. -/
def loadBody (l : Lump) : Except Unit Patch :=
  match readU16 l.data 0 with
  | .error e => .error e
  | .ok (width, pos) =>
    match readU16 l.data pos with
    | .error e => .error e
    | .ok (height, pos) =>
      match readI16 l.data pos with
      | .error e => .error e
      | .ok (top, pos) =>
        match readI16 l.data pos with
        | .error e => .error e
        | .ok (left, pos) =>
          match readColumnOffsets l.data pos width with
          | .error e => .error e
          | .ok (offs, _) =>
            match readColumns l.data offs with
            | .error e => .error e
            | .ok cols => .ok ⟨l.name, width, height, top, left, cols⟩

/-- Models `Patch::load`: decodes a picture lump, mapping any internal error to
`lump.error("bad patch data")`. -/
def Patch.load (l : Lump) : Except WadError Patch :=
  match loadBody l with
  | .ok p => .ok p
  | .error () => .error (l.error "bad patch data")

/-- The raw (unresolved) y-offset bytes of a column's post stream, read by
the same byte grammar as `readPosts` (§6 of the spec: each post is
`1(y) + 1(len) + 1(pad) + len(pixels) + 1(pad)` bytes, the column terminated
by `0xFF`).  This is the spec-side projection used to state the tall-patch
resolution claim. -/
def rawPostYs : Nat → List Nat → Nat → Except Unit (List Nat)
  | 0, _, _ => .error ()
  | fuel + 1, data, pos =>
    match readU8 data pos with
    | .error e => .error e
    | .ok (b, pos) =>
      if b = 255 then
        .ok []
      else
        match readU8 data pos with
        | .error e => .error e
        | .ok (length, pos) =>
          match readU8 data pos with
          | .error e => .error e
          | .ok (_, pos) =>
            match readU8 data (pos + length) with
            | .error e => .error e
            | .ok (_, pos) =>
              match rawPostYs fuel data pos with
              | .error e => .error e
              | .ok rest => .ok (b :: rest)

/-- The tall-patch resolution rule as the spec states it (§4.3), applied to a
list of raw y-offset bytes with `prev` the previous post's resolved offset:
the first post's raw value is absolute; a later raw value `≤` the previous
resolved offset is a delta added to it (as wrapping `u16` arithmetic); a
greater raw value is used as-is. -/
def resolveFrom : Option Nat → List Nat → List Nat
  | _, [] => []
  | prev, r :: rs =>
    let y := resolveY prev r
    y :: resolveFrom (some y) rs

/-! ### Overlay stack, from `src/wad/stack.rs` -/

/-- One `Wad` trait object held by the stack: the three query capabilities
(unique lookup, following-block, between-block), each returning `Option`. -/
structure WadSource where
  lump : String → Option Lump
  lumpsAfter : String → Nat → Option (List Lump)
  lumpsBetween : String → String → Option (List Lump)

/-- Models `WadStack { wads }`: an ordered sequence of sources, later entries
overlaying earlier ones. -/
structure WadStack where
  wads : List WadSource

namespace WadStack

/-- Models `WadStack::lump`: `self.wads.iter().rev().find_map(|wad| wad.lump(name))`. -/
def lump (s : WadStack) (name : String) : Option Lump :=
  s.wads.reverse.findSome? (fun w => w.lump name)

/-- Models `WadStack::lumps_after`: the same reverse scan with the whole block query. -/
def lumpsAfter (s : WadStack) (start : String) (size : Nat) : Option (List Lump) :=
  s.wads.reverse.findSome? (fun w => w.lumpsAfter start size)

/-- Models `WadStack::lumps_between`: the same reverse scan with the whole block query. -/
def lumpsBetween (s : WadStack) (start stop : String) : Option (List Lump) :=
  s.wads.reverse.findSome? (fun w => w.lumpsBetween start stop)

end WadStack

/-! ### Helper lemmas -/

theorem mem_indicesOf {name : String} :
    ∀ {ls : List Lump} {i0 j : Nat}, j ∈ indicesOf name ls i0 →
      ∃ k, j = i0 + k ∧ (ls.get? k).map Lump.name = some name := by
  intro ls
  induction ls with
  | nil => intro i0 j h; simp [indicesOf] at h
  | cons l ls ih =>
    intro i0 j h
    by_cases hn : l.name = name
    · simp only [indicesOf, if_pos hn, List.mem_cons] at h
      rcases h with h | h
      · exact ⟨0, by omega, by simp [hn]⟩
      · obtain ⟨k, hk, hget⟩ := ih h
        exact ⟨k + 1, by omega, by simpa using hget⟩
    · simp only [indicesOf, if_neg hn] at h
      obtain ⟨k, hk, hget⟩ := ih h
      exact ⟨k + 1, by omega, by simpa using hget⟩

theorem lumpIndices_name {w : WadFile} {name : String} {j : Nat}
    (h : j ∈ w.lumpIndices name) :
    j < w.lumps.length ∧ (w.lumps.get? j).map Lump.name = some name := by
  obtain ⟨k, hk, hget⟩ := mem_indicesOf h
  subst hk
  simp only [Nat.zero_add] at hget ⊢
  refine ⟨?_, hget⟩
  by_contra hlt
  rw [List.get?_eq_getElem?, List.getElem?_eq_none_iff.mpr (by omega)] at hget
  simp at hget

theorem getD_mem_slice {ls : List Lump} {s i e : Nat}
    (hsi : s ≤ i) (hie : i ≤ e) (hlen : i < ls.length) :
    ls.getD i default ∈ (ls.drop s).take (e + 1 - s) := by
  have hget : ((ls.drop s).take (e + 1 - s)).get? (i - s) = some (ls.getD i default) := by
    rw [List.get?_eq_getElem?, List.getElem?_take_of_lt (by omega), List.getElem?_drop]
    have : s + (i - s) = i := by omega
    rw [this, List.getD_eq_getElem?_getD, List.getElem?_eq_getElem hlen]
    rfl
  exact List.get?_mem hget

theorem findSomeRev_eq_none_iff {α β : Type} (f : α → Option β) (l : List α) :
    l.reverse.findSome? f = none ↔ ∀ u ∈ l, f u = none := by
  rw [List.findSome?_eq_none_iff]
  constructor
  · intro h u hu; exact h u (List.mem_reverse.mpr hu)
  · intro h u hu; exact h u (List.mem_reverse.mp hu)

theorem findSomeRev_cons {α β : Type} (f : α → Option β) (x : α) (xs : List α) :
    (x :: xs).reverse.findSome? f = (xs.reverse.findSome? f).or (f x) := by
  rw [List.reverse_cons, List.findSome?_append]
  simp only [List.findSome?]
  cases f x <;> rfl

theorem findSomeRev_eq_some_iff {α β : Type} (f : α → Option β) (b : β) :
    ∀ (l : List α), l.reverse.findSome? f = some b ↔
      ∃ l₁ w l₂, l = l₁ ++ w :: l₂ ∧ f w = some b ∧ ∀ u ∈ l₂, f u = none := by
  intro l
  induction l with
  | nil => simp [List.findSome?]
  | cons x xs ih =>
    rw [findSomeRev_cons]
    constructor
    · intro h
      match hxs : xs.reverse.findSome? f with
      | some b' =>
        rw [hxs] at h
        simp only [Option.or_some] at h
        obtain ⟨l₁, w, l₂, hsplit, hw, hpost⟩ := ih.mp (hxs.trans (by rw [h]))
        exact ⟨x :: l₁, w, l₂, by rw [hsplit]; rfl, hw, hpost⟩
      | none =>
        rw [hxs] at h
        simp only [Option.or_none, Option.none_or] at h
        exact ⟨[], x, xs, rfl, h, (findSomeRev_eq_none_iff f xs).mp hxs⟩
    · rintro ⟨l₁, w, l₂, hsplit, hw, hpost⟩
      match l₁, hsplit with
      | [], hsplit =>
        have hx : x = w := by simpa using congrArg (List.headD · x) hsplit
        have hxs : xs = l₂ := by simpa using congrArg List.tail hsplit
        have : xs.reverse.findSome? f = none :=
          (findSomeRev_eq_none_iff f xs).mpr (fun u hu => hpost u (hxs ▸ hu))
        rw [this, hx, hw]
        rfl
      | y :: l₁, hsplit =>
        have hx : x = y := by simpa using congrArg (List.headD · x) hsplit
        have hxs : xs = l₁ ++ w :: l₂ := by simpa using congrArg List.tail hsplit
        have : xs.reverse.findSome? f = some b := ih.mpr ⟨l₁, w, l₂, hxs, hw, hpost⟩
        rw [this]
        rfl

theorem readColumnOffsets_length {data : List Nat} :
    ∀ {n pos offs pos'}, readColumnOffsets data pos n = .ok (offs, pos') →
      offs.length = n := by
  intro n
  induction n with
  | zero =>
    intro pos offs pos' h
    simp only [readColumnOffsets] at h
    cases h
    rfl
  | succ n ih =>
    intro pos offs pos' h
    simp only [readColumnOffsets] at h
    cases hu : readU32 data pos with
    | error e => rw [hu] at h; cases h
    | ok v =>
      obtain ⟨off1, pos1⟩ := v
      rw [hu] at h
      dsimp only at h
      cases hrec : readColumnOffsets data pos1 n with
      | error e => rw [hrec] at h; cases h
      | ok r =>
        obtain ⟨offs2, pos2⟩ := r
        rw [hrec] at h
        dsimp only at h
        cases h
        simp [ih hrec]

theorem readColumns_ok {data : List Nat} :
    ∀ {offs cols}, readColumns data offs = .ok cols →
      cols.length = offs.length ∧
        ∀ c ∈ cols, ∃ off, off ∈ offs ∧ readColumn data off = .ok c := by
  intro offs
  induction offs with
  | nil =>
    intro cols h
    simp only [readColumns] at h
    cases h
    simp
  | cons off offs ih =>
    intro cols h
    simp only [readColumns] at h
    cases hc : readColumn data off with
    | error e => rw [hc] at h; cases h
    | ok c =>
      rw [hc] at h
      cases hrec : readColumns data offs with
      | error e => rw [hrec] at h; cases h
      | ok cs =>
        rw [hrec] at h
        dsimp only at h
        cases h
        obtain ⟨hlen, hmem⟩ := ih hrec
        refine ⟨by simp [hlen], ?_⟩
        intro d hd
        rcases List.mem_cons.mp hd with hd | hd
        · exact ⟨off, List.mem_cons_self off offs, hd ▸ hc⟩
        · obtain ⟨o, ho, hro⟩ := hmem d hd
          exact ⟨o, List.mem_cons_of_mem off ho, hro⟩

theorem loadBody_ok {l : Lump} {p : Patch} (h : loadBody l = .ok p) :
    p.name = l.name ∧ p.columns.length = p.width ∧
      ∀ c ∈ p.columns, ∃ off, readColumn l.data off = .ok c := by
  simp only [loadBody] at h
  cases h1 : readU16 l.data 0 with
  | error e => rw [h1] at h; cases h
  | ok wp =>
    obtain ⟨width, pos1⟩ := wp
    rw [h1] at h
    dsimp only at h
    cases h2 : readU16 l.data pos1 with
    | error e => rw [h2] at h; cases h
    | ok hp =>
      obtain ⟨height, pos2⟩ := hp
      rw [h2] at h
      dsimp only at h
      cases h3 : readI16 l.data pos2 with
      | error e => rw [h3] at h; cases h
      | ok tp =>
        obtain ⟨top, pos3⟩ := tp
        rw [h3] at h
        dsimp only at h
        cases h4 : readI16 l.data pos3 with
        | error e => rw [h4] at h; cases h
        | ok lp =>
          obtain ⟨left, pos4⟩ := lp
          rw [h4] at h
          dsimp only at h
          cases h5 : readColumnOffsets l.data pos4 width with
          | error e => rw [h5] at h; cases h
          | ok op =>
            obtain ⟨offs, pos5⟩ := op
            rw [h5] at h
            dsimp only at h
            cases h6 : readColumns l.data offs with
            | error e => rw [h6] at h; cases h
            | ok cols =>
              rw [h6] at h
              dsimp only at h
              cases h
              obtain ⟨hlen, hmem⟩ := readColumns_ok h6
              refine ⟨rfl, ?_, ?_⟩
              · simpa [hlen] using readColumnOffsets_length h5
              · intro c hc
                obtain ⟨off, _, hoff⟩ := hmem c hc
                exact ⟨off, hoff⟩

theorem readPosts_resolve {data : List Nat} :
    ∀ {fuel pos prev posts endPos},
      readPosts fuel data pos prev = .ok (posts, endPos) →
      ∃ rs, rawPostYs fuel data pos = .ok rs ∧ posts.map Post.y = resolveFrom prev rs := by
  intro fuel
  induction fuel with
  | zero => intro pos prev posts endPos h; cases h
  | succ fuel ih =>
    intro pos prev posts endPos h
    simp only [readPosts] at h
    cases h1 : readU8 data pos with
    | error e => rw [h1] at h; cases h
    | ok bp =>
      obtain ⟨b, pos1⟩ := bp
      rw [h1] at h
      dsimp only at h
      by_cases hb : b = 255
      · rw [if_pos hb] at h
        cases h
        refine ⟨[], ?_, by simp [resolveFrom]⟩
        simp only [rawPostYs, h1]
        rw [if_pos hb]
      · rw [if_neg hb] at h
        cases h2 : readU8 data pos1 with
        | error e => rw [h2] at h; cases h
        | ok lp =>
          obtain ⟨length, pos2⟩ := lp
          rw [h2] at h
          dsimp only at h
          cases h3 : readU8 data pos2 with
          | error e => rw [h3] at h; cases h
          | ok pp =>
            obtain ⟨pad, pos3⟩ := pp
            rw [h3] at h
            dsimp only at h
            cases h4 : sliceGet data pos3 (pos3 + length) with
            | none => rw [h4] at h; cases h
            | some pixels =>
              rw [h4] at h
              dsimp only at h
              cases h5 : readU8 data (pos3 + length) with
              | error e => rw [h5] at h; cases h
              | ok tp =>
                obtain ⟨pad2, pos4⟩ := tp
                rw [h5] at h
                dsimp only at h
                cases h6 : readPosts fuel data pos4 (some (resolveY prev b)) with
                | error e => rw [h6] at h; cases h
                | ok rp =>
                  obtain ⟨rest, endPos2⟩ := rp
                  rw [h6] at h
                  dsimp only at h
                  cases h
                  obtain ⟨rs, hraw, hres⟩ := ih h6
                  refine ⟨b :: rs, ?_, ?_⟩
                  · simp only [rawPostYs, h1, if_neg hb, h2, h3, h5, hraw]
                  · simp only [List.map_cons, hres, resolveFrom]

theorem tryLumpIndex_of_unique {w : WadFile} {name : String} {i : Nat}
    (h : w.lumpIndices name = [i]) : w.tryLumpIndex name = .ok (some i) := by
  simp [WadFile.tryLumpIndex, h]

theorem tryLumpIndex_of_absent {w : WadFile} {name : String}
    (h : w.lumpIndices name = []) : w.tryLumpIndex name = .ok none := by
  simp [WadFile.tryLumpIndex, h]

theorem tryLumpIndex_of_dup {w : WadFile} {name : String} {a b : Nat} {rest : List Nat}
    (h : w.lumpIndices name = a :: b :: rest) :
    w.tryLumpIndex name =
      .error (w.error (name ++ " found " ++ toString (w.lumpIndices name).length ++ " times")) := by
  simp [WadFile.tryLumpIndex, h]

theorem tryLumpIndex_error_malformed {w : WadFile} {name : String} {e : WadError}
    (h : w.tryLumpIndex name = .error e) : ∃ d, e = .malformed w.path d := by
  unfold WadFile.tryLumpIndex at h
  match hi : w.lumpIndices name with
  | [] => rw [hi] at h; cases h
  | [i] => rw [hi] at h; cases h
  | a :: b :: rest =>
    rw [hi] at h
    cases h
    exact ⟨_, rfl⟩

theorem dup_shape {w : WadFile} {name : String}
    (h : 2 ≤ (w.lumpIndices name).length) :
    ∃ a b rest, w.lumpIndices name = a :: b :: rest := by
  match hi : w.lumpIndices name with
  | [] => rw [hi] at h; simp at h
  | [i] => rw [hi] at h; simp at h
  | a :: b :: rest => exact ⟨a, b, rest, rfl⟩

theorem unique_name_of_indices {w : WadFile} {name : String} {i : Nat}
    (h : w.lumpIndices name = [i]) :
    i < w.lumps.length ∧ (w.lumps.getD i default).name = name := by
  have hm : i ∈ w.lumpIndices name := by rw [h]; exact List.mem_singleton_self i
  obtain ⟨hlt, hget⟩ := lumpIndices_name hm
  rcases Option.map_eq_some'.mp hget with ⟨l, hl, hname⟩
  refine ⟨hlt, ?_⟩
  rw [List.getD_eq_getElem?_getD, ← List.get?_eq_getElem?, hl]
  exact hname

theorem drop_take_one {ls : List Lump} {i : Nat} (h : i < ls.length) :
    (ls.drop i).take 1 = [ls.getD i default] := by
  have hd : ls.drop i = ls[i] :: ls.drop (i + 1) := List.drop_eq_getElem_cons h
  rw [hd, List.take_cons Nat.one_pos, List.take_zero, List.getD_eq_getElem?_getD,
    List.getElem?_eq_getElem h]
  rfl

/-! ### Claim theorems -/

/-- C6: for every archive, `lump(name)` returns the lump whenever `name`
occurs exactly once in the directory, fails `Malformed` when the name is
absent, and fails `Malformed` (ambiguous, "found k times") when the name
occurs more than once; a name occurring more than once is still reachable
through the positional block query `lumps_between` delimited by unique
markers enclosing an occurrence. -/
theorem claim6_unique_lookup (w : WadFile) (name : String) :
    (∀ i, w.lumpIndices name = [i] →
      w.lump name = .ok (w.lumps.getD i default) ∧
        (w.lumps.getD i default).name = name) ∧
    (w.lumpIndices name = [] →
      w.lump name = .error (w.error (name ++ " missing"))) ∧
    (2 ≤ (w.lumpIndices name).length →
      w.lump name =
        .error (w.error
          (name ++ " found " ++ toString (w.lumpIndices name).length ++ " times"))) ∧
    (∀ i s e si ei, 2 ≤ (w.lumpIndices name).length → i ∈ w.lumpIndices name →
      w.lumpIndices s = [si] → w.lumpIndices e = [ei] → si ≤ i → i ≤ ei →
      ∃ block, w.lumpsBetween s e = .ok block ∧
        w.lumps.getD i default ∈ block ∧ (w.lumps.getD i default).name = name) := by
  refine ⟨?_, ?_, ?_, ?_⟩
  · intro i hi
    obtain ⟨hlt, hname⟩ := unique_name_of_indices hi
    refine ⟨?_, hname⟩
    simp [WadFile.lump, WadFile.tryLump, tryLumpIndex_of_unique hi]
  · intro hi
    simp [WadFile.lump, WadFile.tryLump, tryLumpIndex_of_absent hi]
  · intro hdup
    obtain ⟨a, b, rest, hi⟩ := dup_shape hdup
    simp [WadFile.lump, WadFile.tryLump, tryLumpIndex_of_dup hi]
  · intro i s e si ei _ hi hs he hsi hie
    obtain ⟨hilt, hignm⟩ := lumpIndices_name hi
    obtain ⟨hslt, _⟩ := unique_name_of_indices hs
    obtain ⟨helt, _⟩ := unique_name_of_indices he
    refine ⟨(w.lumps.drop si).take (ei + 1 - si), ?_, ?_, ?_⟩
    · simp only [WadFile.lumpsBetween, WadFile.tryLumpsBetween,
        tryLumpIndex_of_unique hs, tryLumpIndex_of_unique he]
      rw [if_neg (by omega)]
    · exact getD_mem_slice hsi hie hilt
    · rcases Option.map_eq_some'.mp hignm with ⟨l, hl, hname⟩
      rw [List.getD_eq_getElem?_getD, ← List.get?_eq_getElem?, hl]
      exact hname

/-- C6 witness: on the archive `[S, M, X, X, E]`, the unique name `M` is
retrieved, the absent name `Q` and the duplicated name `X` fail `Malformed`,
and the second `X` (index 3) is still reachable through
`lumps_between(S, E)`. -/
theorem claim6_witness :
    (WadFile.lump ⟨"p", [⟨"S", []⟩, ⟨"M", [7]⟩, ⟨"X", [1]⟩, ⟨"X", [2]⟩, ⟨"E", []⟩]⟩ "M" =
        .ok ⟨"M", [7]⟩ ∧ (Lump.name ⟨"M", [7]⟩) = "M") ∧
    WadFile.lump ⟨"p", [⟨"S", []⟩, ⟨"M", [7]⟩, ⟨"X", [1]⟩, ⟨"X", [2]⟩, ⟨"E", []⟩]⟩ "Q" =
      .error (.malformed "p" "Q missing") ∧
    WadFile.lump ⟨"p", [⟨"S", []⟩, ⟨"M", [7]⟩, ⟨"X", [1]⟩, ⟨"X", [2]⟩, ⟨"E", []⟩]⟩ "X" =
      .error (.malformed "p" "X found 2 times") ∧
    ∃ block,
      WadFile.lumpsBetween ⟨"p", [⟨"S", []⟩, ⟨"M", [7]⟩, ⟨"X", [1]⟩, ⟨"X", [2]⟩, ⟨"E", []⟩]⟩
          "S" "E" = .ok block ∧
        (⟨"X", [2]⟩ : Lump) ∈ block ∧ (Lump.name ⟨"X", [2]⟩) = "X" := by
  refine ⟨(claim6_unique_lookup _ "M").1 1 (by decide), ?_, ?_, ?_⟩
  · exact (claim6_unique_lookup _ "Q").2.1 (by decide)
  · exact (claim6_unique_lookup _ "X").2.2.1 (by decide)
  · exact (claim6_unique_lookup _ "X").2.2.2 3 "S" "E" 0 4 (by decide) (by decide)
      (by decide) (by decide) (by decide) (by decide)

/-- C7: for every archive, `lumps_between(start, end)` with both markers
unique returns the inclusive slice from `start` to `end` when `start` does
not occur after `end`, fails `Malformed` naming the missing marker when
exactly one marker is present, and fails `Malformed` when `start` occurs
after `end`; in particular swapping a valid pair where `start` strictly
precedes `end` always fails. -/
theorem claim7_between (w : WadFile) (s e : String) :
    (∀ si ei, w.lumpIndices s = [si] → w.lumpIndices e = [ei] →
      (si ≤ ei → w.lumpsBetween s e = .ok ((w.lumps.drop si).take (ei + 1 - si))) ∧
      (ei < si → w.lumpsBetween s e = .error (w.error (s ++ " after " ++ e))) ∧
      (si < ei → w.lumpsBetween e s = .error (w.error (e ++ " after " ++ s)))) ∧
    (∀ si, w.lumpIndices s = [si] → w.lumpIndices e = [] →
      w.lumpsBetween s e = .error (w.error (s ++ " without " ++ e))) ∧
    (∀ ei, w.lumpIndices s = [] → w.lumpIndices e = [ei] →
      w.lumpsBetween s e = .error (w.error (e ++ " without " ++ s))) := by
  refine ⟨?_, ?_, ?_⟩
  · intro si ei hs he
    refine ⟨?_, ?_, ?_⟩
    · intro hle
      simp only [WadFile.lumpsBetween, WadFile.tryLumpsBetween,
        tryLumpIndex_of_unique hs, tryLumpIndex_of_unique he]
      rw [if_neg (by omega)]
    · intro hlt
      simp only [WadFile.lumpsBetween, WadFile.tryLumpsBetween,
        tryLumpIndex_of_unique hs, tryLumpIndex_of_unique he]
      rw [if_pos (by omega)]
    · intro hlt
      simp only [WadFile.lumpsBetween, WadFile.tryLumpsBetween,
        tryLumpIndex_of_unique hs, tryLumpIndex_of_unique he]
      rw [if_pos (by omega)]
  · intro si hs he
    simp [WadFile.lumpsBetween, WadFile.tryLumpsBetween,
      tryLumpIndex_of_unique hs, tryLumpIndex_of_absent he]
  · intro ei hs he
    simp [WadFile.lumpsBetween, WadFile.tryLumpsBetween,
      tryLumpIndex_of_absent hs, tryLumpIndex_of_unique he]

/-- C7 witness: on the archive `[S, A, E]`, `lumps_between(S, E)` returns
the inclusive slice, the swapped call fails `Malformed`, and with the `E`
marker replaced by the absent name `Q` the call fails naming the missing
marker. -/
theorem claim7_witness :
    WadFile.lumpsBetween ⟨"p", [⟨"S", []⟩, ⟨"A", [9]⟩, ⟨"E", []⟩]⟩ "S" "E" =
      .ok [⟨"S", []⟩, ⟨"A", [9]⟩, ⟨"E", []⟩] ∧
    WadFile.lumpsBetween ⟨"p", [⟨"S", []⟩, ⟨"A", [9]⟩, ⟨"E", []⟩]⟩ "E" "S" =
      .error (.malformed "p" "E after S") ∧
    WadFile.lumpsBetween ⟨"p", [⟨"S", []⟩, ⟨"A", [9]⟩, ⟨"E", []⟩]⟩ "S" "Q" =
      .error (.malformed "p" "S without Q") := by
  refine ⟨?_, ?_, ?_⟩
  · exact ((claim7_between _ "S" "E").1 0 2 (by decide) (by decide)).1 (by decide)
  · exact ((claim7_between _ "S" "E").1 0 2 (by decide) (by decide)).2.2 (by decide)
  · exact (claim7_between _ "S" "Q").2.1 0 (by decide) (by decide)

/-- C10: for every archive containing a unique marker `m`,
`lumps_between(m, m)` succeeds and returns the one-element slice holding
exactly the marker lump: equal start and end positions are permitted. -/
theorem claim10_between_same (w : WadFile) (m : String) (i : Nat)
    (h : w.lumpIndices m = [i]) :
    w.lumpsBetween m m = .ok [w.lumps.getD i default] ∧
      (w.lumps.getD i default).name = m := by
  obtain ⟨hlt, hname⟩ := unique_name_of_indices h
  refine ⟨?_, hname⟩
  simp only [WadFile.lumpsBetween, WadFile.tryLumpsBetween, tryLumpIndex_of_unique h]
  rw [if_neg (by omega)]
  rw [Nat.add_sub_cancel_left, drop_take_one hlt]

/-- C10 witness: on the archive `[A, M, B]`, `lumps_between(M, M)` returns
exactly `[M]`. -/
theorem claim10_witness :
    WadFile.lumpsBetween ⟨"p", [⟨"A", [1]⟩, ⟨"M", [5]⟩, ⟨"B", [2]⟩]⟩ "M" "M" =
      .ok [⟨"M", [5]⟩] ∧ (Lump.name ⟨"M", [5]⟩) = "M" :=
  claim10_between_same ⟨"p", [⟨"A", [1]⟩, ⟨"M", [5]⟩, ⟨"B", [2]⟩]⟩ "M" 1 (by decide)

/-- C1 (amended): for every archive and unique marker `m` and every `n ≥ 1`,
`lumps_following(m, n)` returns the contiguous slice of `n` lumps starting
at the marker — the marker plus the next `n - 1` lumps — and fails
`Malformed` exactly when the archive does not contain `n` lumps after the
marker. -/
theorem claim1_following (w : WadFile) (m : String) (n si : Nat)
    (hn : 1 ≤ n) (h : w.lumpIndices m = [si]) :
    (w.lumps.length - (si + 1) < n →
      w.lumpsFollowing m n = .error (w.error (m ++ " missing lumps"))) ∧
    (n ≤ w.lumps.length - (si + 1) →
      w.lumpsFollowing m n = .ok ((w.lumps.drop si).take n) ∧
        ((w.lumps.drop si).take n).length = n ∧
        ((w.lumps.drop si).take n).head? = some (w.lumps.getD si default)) := by
  obtain ⟨hlt, _⟩ := unique_name_of_indices h
  constructor
  · intro hshort
    simp only [WadFile.lumpsFollowing, WadFile.tryLumpsFollowing, tryLumpIndex_of_unique h]
    rw [if_pos (by omega)]
  · intro henough
    refine ⟨?_, ?_, ?_⟩
    · simp only [WadFile.lumpsFollowing, WadFile.tryLumpsFollowing, tryLumpIndex_of_unique h]
      rw [if_neg (by omega)]
    · simp only [List.length_take, List.length_drop]
      omega
    · rw [List.head?_take, if_neg (by omega), List.head?_drop,
        List.getD_eq_getElem?_getD, List.getElem?_eq_getElem hlt]
      rfl

/-- C1 counterexample: the claim as stated says `lumps_following(m, n)`
returns the marker plus the next `n` lumps (`n + 1` lumps).  On the archive
`[M, A]` with `n = 1` the one lump after the marker satisfies the claim's
"contains `n` lumps after the marker" condition, yet the call returns the
one-element slice `[M]`, not the two-element `[M, A]`. -/
theorem claim1_counterexample :
    WadFile.lumpsFollowing ⟨"p", [⟨"M", []⟩, ⟨"A", [1]⟩]⟩ "M" 1 = .ok [⟨"M", []⟩] ∧
      ([(⟨"M", []⟩ : Lump)] ≠ [⟨"M", []⟩, ⟨"A", [1]⟩]) := by
  exact ⟨rfl, by decide⟩

/-- C1 witness: on the archive `[M, A, B]`, `lumps_following(M, 2)` returns
`[M, A]` (two lumps: the marker plus one), and `lumps_following(M, 3)` fails
`Malformed` because only two lumps follow the marker. -/
theorem claim1_witness :
    (WadFile.lumpsFollowing ⟨"p", [⟨"M", []⟩, ⟨"A", [1]⟩, ⟨"B", [2]⟩]⟩ "M" 2 =
        .ok [⟨"M", []⟩, ⟨"A", [1]⟩] ∧
      ([(⟨"M", []⟩ : Lump), ⟨"A", [1]⟩] : List Lump).length = 2 ∧
      ([(⟨"M", []⟩ : Lump), ⟨"A", [1]⟩] : List Lump).head? = some ⟨"M", []⟩) ∧
    WadFile.lumpsFollowing ⟨"p", [⟨"M", []⟩, ⟨"A", [1]⟩, ⟨"B", [2]⟩]⟩ "M" 3 =
      .error (.malformed "p" "M missing lumps") := by
  constructor
  · exact (claim1_following _ "M" 2 0 (by decide) (by decide)).2 (by decide)
  · exact (claim1_following _ "M" 3 0 (by decide) (by decide)).1 (by decide)

/-- C9: for every archive and name occurring more than once in its
directory, the optional-result variants `try_lump`, `try_lumps_following`
(with `n ≥ 1`), and `try_lumps_between` with that name as either marker all
return a `Malformed` error — the ambiguity error for the lookups of the
duplicated name itself — never an absent result and never a lump. -/
theorem claim9_ambiguous_try (w : WadFile) (name other : String) (n : Nat)
    (hdup : 2 ≤ (w.lumpIndices name).length) (_hn : 1 ≤ n) :
    w.tryLump name =
      .error (w.error
        (name ++ " found " ++ toString (w.lumpIndices name).length ++ " times")) ∧
    w.tryLumpsFollowing name n =
      .error (w.error
        (name ++ " found " ++ toString (w.lumpIndices name).length ++ " times")) ∧
    (∃ d, w.tryLumpsBetween name other = .error (.malformed w.path d)) ∧
    (∃ d, w.tryLumpsBetween other name = .error (.malformed w.path d)) := by
  obtain ⟨a, b, rest, hi⟩ := dup_shape hdup
  refine ⟨?_, ?_, ?_, ?_⟩
  · simp [WadFile.tryLump, tryLumpIndex_of_dup hi]
  · simp [WadFile.tryLumpsFollowing, tryLumpIndex_of_dup hi]
  · refine ⟨name ++ " found " ++ toString (w.lumpIndices name).length ++ " times", ?_⟩
    simp [WadFile.tryLumpsBetween, tryLumpIndex_of_dup hi, WadFile.error]
  · cases ho : w.tryLumpIndex other with
    | error e =>
      obtain ⟨d, hd⟩ := tryLumpIndex_error_malformed ho
      exact ⟨d, by simp [WadFile.tryLumpsBetween, ho, hd]⟩
    | ok oi =>
      refine ⟨name ++ " found " ++ toString (w.lumpIndices name).length ++ " times", ?_⟩
      simp [WadFile.tryLumpsBetween, ho, tryLumpIndex_of_dup hi, WadFile.error]

/-- C9 witness: on the archive `[X, X, A]` where `X` is duplicated, all four
optional-result queries fail `Malformed`. -/
theorem claim9_witness :
    WadFile.tryLump ⟨"p", [⟨"X", [1]⟩, ⟨"X", [2]⟩, ⟨"A", []⟩]⟩ "X" =
      .error (.malformed "p" "X found 2 times") ∧
    WadFile.tryLumpsFollowing ⟨"p", [⟨"X", [1]⟩, ⟨"X", [2]⟩, ⟨"A", []⟩]⟩ "X" 1 =
      .error (.malformed "p" "X found 2 times") ∧
    (∃ d, WadFile.tryLumpsBetween ⟨"p", [⟨"X", [1]⟩, ⟨"X", [2]⟩, ⟨"A", []⟩]⟩ "X" "A" =
      .error (.malformed "p" d)) ∧
    (∃ d, WadFile.tryLumpsBetween ⟨"p", [⟨"X", [1]⟩, ⟨"X", [2]⟩, ⟨"A", []⟩]⟩ "A" "X" =
      .error (.malformed "p" d)) :=
  claim9_ambiguous_try ⟨"p", [⟨"X", [1]⟩, ⟨"X", [2]⟩, ⟨"A", []⟩]⟩ "X" "A" 1
    (by decide) (by decide)

/-- C3: for every overlay stack and name, `lump(name)` scans sources from
the most recently added to the least recently added and returns the first
source's match (the match of the source after which every source yields no
match); a name absent from every source yields `none` — a not-found
outcome, not an error. -/
theorem claim3_stack_lump (s : WadStack) (name : String) :
    (s.lump name = none ↔ ∀ u ∈ s.wads, u.lump name = none) ∧
    (∀ l, s.lump name = some l ↔
      ∃ older w newer, s.wads = older ++ w :: newer ∧ w.lump name = some l ∧
        ∀ u ∈ newer, u.lump name = none) := by
  exact ⟨findSomeRev_eq_none_iff _ s.wads, fun l => findSomeRev_eq_some_iff _ l s.wads⟩

/-- C3 witness: with sources `[A, B]` both defining `X`, the stack returns
B's lump; with B replaced by a source lacking `X`, A's lump becomes visible
again; a name absent everywhere yields `none`. -/
theorem claim3_witness :
    (WadStack.lump
        ⟨[⟨fun n => if n = "X" then some ⟨"X", [1]⟩ else none, fun _ _ => none, fun _ _ => none⟩,
          ⟨fun n => if n = "X" then some ⟨"X", [2]⟩ else none, fun _ _ => none, fun _ _ => none⟩]⟩
        "X" = some ⟨"X", [2]⟩) ∧
    (WadStack.lump
        ⟨[⟨fun n => if n = "X" then some ⟨"X", [1]⟩ else none, fun _ _ => none, fun _ _ => none⟩,
          ⟨fun _ => none, fun _ _ => none, fun _ _ => none⟩]⟩
        "X" = some ⟨"X", [1]⟩) ∧
    (WadStack.lump
        ⟨[⟨fun n => if n = "X" then some ⟨"X", [1]⟩ else none, fun _ _ => none, fun _ _ => none⟩,
          ⟨fun n => if n = "X" then some ⟨"X", [2]⟩ else none, fun _ _ => none, fun _ _ => none⟩]⟩
        "Y" = none) := by
  refine ⟨?_, ?_, ?_⟩
  · exact ((claim3_stack_lump _ "X").2 ⟨"X", [2]⟩).mpr
      ⟨[⟨fun n => if n = "X" then some ⟨"X", [1]⟩ else none, fun _ _ => none, fun _ _ => none⟩],
        _, [], rfl, by simp, by simp⟩
  · exact ((claim3_stack_lump _ "X").2 ⟨"X", [1]⟩).mpr
      ⟨[], _, [⟨fun _ => none, fun _ _ => none, fun _ _ => none⟩], rfl, by simp, by simp⟩
  · exact (claim3_stack_lump _ "Y").1.mpr (by
      intro u hu
      simp only [List.mem_cons, List.not_mem_nil, or_false] at hu
      rcases hu with rfl | rfl <;> simp)

/-- C4: for every overlay stack, the block queries `lumps_after(marker, n)`
and `lumps_between(start, end)` are resolved whole-block from a single
source: a returned block is exactly one source's entire answer, and every
more recently added source yields no block at all — so lumps from
different sources are never mixed within one returned block; the queries
return `none` only when no source can satisfy the whole block. -/
theorem claim4_stack_blocks (s : WadStack) (start stop : String) (n : Nat) :
    ((∀ block, s.lumpsAfter start n = some block ↔
      ∃ older w newer, s.wads = older ++ w :: newer ∧ w.lumpsAfter start n = some block ∧
        ∀ u ∈ newer, u.lumpsAfter start n = none) ∧
     (s.lumpsAfter start n = none ↔ ∀ u ∈ s.wads, u.lumpsAfter start n = none)) ∧
    ((∀ block, s.lumpsBetween start stop = some block ↔
      ∃ older w newer, s.wads = older ++ w :: newer ∧
        w.lumpsBetween start stop = some block ∧
        ∀ u ∈ newer, u.lumpsBetween start stop = none) ∧
     (s.lumpsBetween start stop = none ↔
        ∀ u ∈ s.wads, u.lumpsBetween start stop = none)) := by
  exact ⟨⟨fun block => findSomeRev_eq_some_iff _ block s.wads,
      findSomeRev_eq_none_iff _ s.wads⟩,
    ⟨fun block => findSomeRev_eq_some_iff _ block s.wads,
      findSomeRev_eq_none_iff _ s.wads⟩⟩

/-- C4 witness: with sources `[A, B]` whose `MAP01` blocks have different
interior lump sizes, `lumps_after("MAP01", 2)` returns B's whole block, with
none of A's lumps mixed in. -/
theorem claim4_witness :
    WadStack.lumpsAfter
      ⟨[⟨fun _ => none,
          fun m _ => if m = "MAP01" then some [⟨"THINGS", [1]⟩, ⟨"LINEDEFS", [2]⟩] else none,
          fun _ _ => none⟩,
        ⟨fun _ => none,
          fun m _ => if m = "MAP01" then some [⟨"THINGS", [7, 7]⟩, ⟨"LINEDEFS", [8, 8]⟩] else none,
          fun _ _ => none⟩]⟩
      "MAP01" 2 = some [⟨"THINGS", [7, 7]⟩, ⟨"LINEDEFS", [8, 8]⟩] := by
  exact (((claim4_stack_blocks _ "MAP01" "" 2).1.1
      [⟨"THINGS", [7, 7]⟩, ⟨"LINEDEFS", [8, 8]⟩]).mpr
    ⟨[⟨fun _ => none,
        fun m _ => if m = "MAP01" then some [⟨"THINGS", [1]⟩, ⟨"LINEDEFS", [2]⟩] else none,
        fun _ _ => none⟩],
      _, [], rfl, by simp, by simp⟩)

/-- C5: for every input lump, the picture decoder either returns a fully
built `Patch` (named after the lump, with exactly `width` columns) or fails
`Malformed` scoped to the lump's name; it is a total function — every
out-of-bounds header read, column-offset read, post byte read, cursor
movement, or pixel slice aborts into the single `Malformed` outcome — and
it never returns a partially built `Patch`. -/
theorem claim5_decoder_safety (l : Lump) :
    (∃ p, Patch.load l = .ok p ∧ p.name = l.name ∧ p.columns.length = p.width) ∨
      Patch.load l = .error (l.error "bad patch data") := by
  cases hb : loadBody l with
  | error e =>
    right
    cases e
    simp [Patch.load, hb]
  | ok p =>
    left
    obtain ⟨hn, hw, _⟩ := loadBody_ok hb
    exact ⟨p, by simp [Patch.load, hb], hn, hw⟩

/-- C2 (amended): for every successfully decoded picture lump and every
column in it, the column's resolved y-offsets are exactly the tall-patch
resolution of the raw y-offset bytes of that column's post stream in the
lump: the first post's resolved y-offset equals its raw byte value; each
later post whose raw y-offset is ≤ the previous post's resolved y-offset
resolves to the previous resolved offset plus the raw value reduced
`% 2 ^ 16` (wrapping `u16` addition), and each later post whose raw
y-offset is greater resolves to the raw value unchanged. -/
theorem claim2_tall_patch (l : Lump) (p : Patch) (h : Patch.load l = .ok p) :
    ∀ c ∈ p.columns, ∃ off rs,
      readColumn l.data off = .ok c ∧
      rawPostYs (l.data.length + 1) l.data off = .ok rs ∧
      c.posts.map Post.y = resolveFrom none rs := by
  have hb : loadBody l = .ok p := by
    unfold Patch.load at h
    cases hlb : loadBody l with
    | error e => rw [hlb] at h; cases e; cases h
    | ok q => rw [hlb] at h; cases h; rfl
  obtain ⟨_, _, hcols⟩ := loadBody_ok hb
  intro c hc
  obtain ⟨off, hoff⟩ := hcols c hc
  unfold readColumn at hoff
  cases hp : readPosts (l.data.length + 1) l.data off none with
  | error e => rw [hp] at hoff; cases hoff
  | ok pr =>
    obtain ⟨posts, endPos⟩ := pr
    rw [hp] at hoff
    dsimp only at hoff
    cases hoff
    obtain ⟨rs, hraw, hres⟩ := readPosts_resolve hp
    refine ⟨off, rs, ?_, hraw, hres⟩
    unfold readColumn
    rw [hp]

/-- C2 witness: a one-column lump whose second post's raw y-offset `3` is
≤ the first post's resolved y-offset `10` decodes with the second post
resolved to `13 = 10 + 3`, and the decoded column satisfies the resolution
correspondence. -/
theorem claim2_witness :
    Patch.load ⟨"W", [1, 0, 5, 0, 0, 0, 0, 0, 12, 0, 0, 0, 10, 0, 9, 9, 3, 0, 9, 9, 255]⟩ =
      .ok ⟨"W", 1, 5, 0, 0, [⟨[⟨10, []⟩, ⟨13, []⟩]⟩]⟩ ∧
    ∀ c ∈ (Patch.columns ⟨"W", 1, 5, 0, 0, [⟨[⟨10, []⟩, ⟨13, []⟩]⟩]⟩), ∃ off rs,
      readColumn [1, 0, 5, 0, 0, 0, 0, 0, 12, 0, 0, 0, 10, 0, 9, 9, 3, 0, 9, 9, 255] off =
        .ok c ∧
      rawPostYs 22 [1, 0, 5, 0, 0, 0, 0, 0, 12, 0, 0, 0, 10, 0, 9, 9, 3, 0, 9, 9, 255] off =
        .ok rs ∧
      c.posts.map Post.y = resolveFrom none rs :=
  ⟨rfl, claim2_tall_patch ⟨"W", [1, 0, 5, 0, 0, 0, 0, 0, 12, 0, 0, 0, 10, 0, 9, 9, 3, 0, 9, 9, 255]⟩
    ⟨"W", 1, 5, 0, 0, [⟨[⟨10, []⟩, ⟨13, []⟩]⟩]⟩ rfl⟩

/-- A picture lump with one column of 259 zero-length posts, every raw
y-offset byte `254`: each post after the first triggers the tall-patch delta
rule, so the resolved offsets climb by 254 per post until the `u16` addition
wraps at post 258. -/
def tallWrapData : List Nat :=
  [1, 0, 1, 0, 0, 0, 0, 0, 12, 0, 0, 0] ++
    (List.replicate 259 [254, 0, 0, 0]).flatten ++ [255]

/-- Characterization of the post loop on a run of `m` zero-length posts all
carrying raw y-offset byte `254`, ending at the column terminator: the loop
succeeds and its resolved y-offsets are the tall-patch resolution of `m` raw
bytes `254`.  Proved by induction so that concrete instances do not need the
kernel to evaluate the loop on a long buffer. -/
theorem readPosts_run254 {data : List Nat} (k : Nat) :
    ∀ m pos (prev : Option Nat),
      data.drop pos = (List.replicate m [254, 0, 0, 0]).flatten ++ [255] →
      ∃ posts endPos,
        readPosts (m + k + 1) data pos prev = .ok (posts, endPos) ∧
        posts.map Post.y = resolveFrom prev (List.replicate m 254) := by
  intro m
  induction m with
  | zero =>
    intro pos prev hdrop
    simp only [List.replicate, List.flatten_nil, List.nil_append] at hdrop
    have hget : data.get? pos = some 255 := by
      rw [List.get?_eq_getElem?, ← List.head?_drop, hdrop]
      rfl
    refine ⟨[], pos + 1, ?_, by simp [resolveFrom]⟩
    rw [show 0 + k + 1 = k + 1 from by omega]
    simp only [readPosts, readU8, hget]
    simp
  | succ m ih =>
    intro pos prev hdrop
    simp only [List.replicate_succ, List.flatten_cons, List.cons_append,
      List.nil_append, List.append_assoc] at hdrop
    -- hdrop : data.drop pos = 254 :: 0 :: 0 :: 0 :: (flatten (replicate m _) ++ [255])
    have hlen5 : pos + 5 ≤ data.length := by
      have hl := congrArg List.length hdrop
      simp [List.length_drop] at hl
      omega
    have h0 : data.get? pos = some 254 := by
      rw [List.get?_eq_getElem?, ← List.head?_drop, hdrop]
      rfl
    have hd1 : data.drop (pos + 1) =
        0 :: 0 :: 0 :: ((List.replicate m [254, 0, 0, 0]).flatten ++ [255]) := by
      rw [← List.drop_drop, hdrop]
      rfl
    have hd2 : data.drop (pos + 1 + 1) =
        0 :: 0 :: ((List.replicate m [254, 0, 0, 0]).flatten ++ [255]) := by
      rw [← List.drop_drop, hd1]
      rfl
    have hd3 : data.drop (pos + 1 + 1 + 1) =
        0 :: ((List.replicate m [254, 0, 0, 0]).flatten ++ [255]) := by
      rw [← List.drop_drop, hd2]
      rfl
    have h1 : data.get? (pos + 1) = some 0 := by
      rw [List.get?_eq_getElem?, ← List.head?_drop, hd1]
      rfl
    have h2 : data.get? (pos + 1 + 1) = some 0 := by
      rw [List.get?_eq_getElem?, ← List.head?_drop, hd2]
      rfl
    have h3 : data.get? (pos + 1 + 1 + 1 + 0) = some 0 := by
      rw [show pos + 1 + 1 + 1 + 0 = pos + 1 + 1 + 1 from by omega,
        List.get?_eq_getElem?, ← List.head?_drop, hd3]
      rfl
    have hdrop4 : data.drop (pos + 1 + 1 + 1 + 0 + 1) =
        (List.replicate m [254, 0, 0, 0]).flatten ++ [255] := by
      rw [show pos + 1 + 1 + 1 + 0 + 1 = pos + 1 + 1 + 1 + 1 from by omega,
        ← List.drop_drop, hd3]
      rfl
    have hs : sliceGet data (pos + 1 + 1 + 1) (pos + 1 + 1 + 1 + 0) = some [] := by
      unfold sliceGet
      rw [if_pos ⟨by omega, by omega⟩,
        show pos + 1 + 1 + 1 + 0 - (pos + 1 + 1 + 1) = 0 from by omega, List.take_zero]
    obtain ⟨rest, endPos, hrec, hres⟩ := ih (pos + 1 + 1 + 1 + 0 + 1) (some (resolveY prev 254)) hdrop4
    refine ⟨⟨resolveY prev 254, []⟩ :: rest, endPos, ?_, ?_⟩
    · rw [show m + 1 + k + 1 = (m + k + 1) + 1 from by omega]
      rw [readPosts]
      simp only [readU8, h0, h1, h2, h3, hs, hrec]
      simp
    · simp only [List.map_cons, hres, List.replicate_succ, resolveFrom]


/-- The raw-byte projection of the same run: `m` raw y-offset bytes `254`. -/
theorem rawPostYs_run254 {data : List Nat} (k : Nat) :
    ∀ m pos,
      data.drop pos = (List.replicate m [254, 0, 0, 0]).flatten ++ [255] →
      rawPostYs (m + k + 1) data pos = .ok (List.replicate m 254) := by
  intro m
  induction m with
  | zero =>
    intro pos hdrop
    simp only [List.replicate, List.flatten_nil, List.nil_append] at hdrop
    have hget : data.get? pos = some 255 := by
      rw [List.get?_eq_getElem?, ← List.head?_drop, hdrop]
      rfl
    rw [show 0 + k + 1 = k + 1 from by omega]
    simp only [rawPostYs, readU8, hget]
    simp
  | succ m ih =>
    intro pos hdrop
    simp only [List.replicate_succ, List.flatten_cons, List.cons_append,
      List.nil_append, List.append_assoc] at hdrop
    have h0 : data.get? pos = some 254 := by
      rw [List.get?_eq_getElem?, ← List.head?_drop, hdrop]
      rfl
    have hd1 : data.drop (pos + 1) =
        0 :: 0 :: 0 :: ((List.replicate m [254, 0, 0, 0]).flatten ++ [255]) := by
      rw [← List.drop_drop, hdrop]
      rfl
    have hd2 : data.drop (pos + 1 + 1) =
        0 :: 0 :: ((List.replicate m [254, 0, 0, 0]).flatten ++ [255]) := by
      rw [← List.drop_drop, hd1]
      rfl
    have hd3 : data.drop (pos + 1 + 1 + 1) =
        0 :: ((List.replicate m [254, 0, 0, 0]).flatten ++ [255]) := by
      rw [← List.drop_drop, hd2]
      rfl
    have h1 : data.get? (pos + 1) = some 0 := by
      rw [List.get?_eq_getElem?, ← List.head?_drop, hd1]
      rfl
    have h2 : data.get? (pos + 1 + 1) = some 0 := by
      rw [List.get?_eq_getElem?, ← List.head?_drop, hd2]
      rfl
    have h3 : data.get? (pos + 1 + 1 + 1 + 0) = some 0 := by
      rw [show pos + 1 + 1 + 1 + 0 = pos + 1 + 1 + 1 from by omega,
        List.get?_eq_getElem?, ← List.head?_drop, hd3]
      rfl
    have hdrop4 : data.drop (pos + 1 + 1 + 1 + 0 + 1) =
        (List.replicate m [254, 0, 0, 0]).flatten ++ [255] := by
      rw [show pos + 1 + 1 + 1 + 0 + 1 = pos + 1 + 1 + 1 + 1 from by omega,
        ← List.drop_drop, hd3]
      rfl
    rw [show m + 1 + k + 1 = (m + k + 1) + 1 from by omega]
    rw [rawPostYs]
    simp only [readU8, h0, h1, h2, h3, ih (pos + 1 + 1 + 1 + 0 + 1) hdrop4]
    simp [List.replicate_succ]

/-- Column decoding of the run, at the fuel `Patch::load` uses. -/
theorem readColumn_run254 {data : List Nat} (m k pos : Nat)
    (hfuel : data.length + 1 = m + k + 1)
    (hdrop : data.drop pos = (List.replicate m [254, 0, 0, 0]).flatten ++ [255]) :
    ∃ posts, readColumn data pos = .ok ⟨posts⟩ ∧
      posts.map Post.y = resolveFrom none (List.replicate m 254) := by
  obtain ⟨posts, endPos, hrp, hys⟩ := readPosts_run254 k m pos none hdrop
  refine ⟨posts, ?_, hys⟩
  unfold readColumn
  rw [hfuel, hrp]

/-- The raw-byte projection of the run, at the fuel used in the claim. -/
theorem rawPostYs_run254_fuel {data : List Nat} (m k pos : Nat)
    (hfuel : data.length + 1 = m + k + 1)
    (hdrop : data.drop pos = (List.replicate m [254, 0, 0, 0]).flatten ++ [255]) :
    rawPostYs (data.length + 1) data pos = .ok (List.replicate m 254) := by
  rw [hfuel]
  exact rawPostYs_run254 k m pos hdrop

/-- Shape of `loadBody` for a width-1 picture given its header reads and its
single decoded column. -/
theorem loadBody_single_column {l : Lump} {p1 p2 p3 p4 p5 ht off : Nat} {t le : Int}
    {c : Column}
    (h1 : readU16 l.data 0 = .ok (1, p1))
    (h2 : readU16 l.data p1 = .ok (ht, p2))
    (h3 : readI16 l.data p2 = .ok (t, p3))
    (h4 : readI16 l.data p3 = .ok (le, p4))
    (h5 : readColumnOffsets l.data p4 1 = .ok ([off], p5))
    (h6 : readColumn l.data off = .ok c) :
    loadBody l = .ok ⟨l.name, 1, ht, t, le, [c]⟩ := by
  unfold loadBody
  rw [h1]
  dsimp only
  rw [h2]
  dsimp only
  rw [h3]
  dsimp only
  rw [h4]
  dsimp only
  rw [h5]
  dsimp only
  simp only [readColumns, h6]

/-- Lifts a `loadBody` success to `Patch::load`. -/
theorem load_of_loadBody {l : Lump} {p : Patch} (h : loadBody l = .ok p) :
    Patch.load l = .ok p := by
  unfold Patch.load
  rw [h]

set_option maxRecDepth 8000 in
/-- C2 counterexample: the claim states a later post whose raw y-offset is
≤ the previous post's resolved y-offset resolves to the previous resolved
offset plus the raw value.  The lump `tallWrapData` decodes successfully and
its single column's raw y-offset bytes are 259 copies of `254`; post 257
resolves to `65532` and post 258 — raw `254 ≤ 65532` — resolves to `250`,
the wrapping `u16` sum `(65532 + 254) % 2 ^ 16`, not to `65532 + 254` as the
claim requires. -/
theorem claim2_counterexample :
    ∃ p c, Patch.load ⟨"CEX", tallWrapData⟩ = .ok p ∧ p.columns = [c] ∧
      rawPostYs (tallWrapData.length + 1) tallWrapData 12 = .ok (List.replicate 259 254) ∧
      c.posts.map Post.y = resolveFrom none (List.replicate 259 254) ∧
      (List.replicate 259 (254 : Nat)).get? 258 = some 254 ∧
      (c.posts.map Post.y).get? 257 = some 65532 ∧
      (c.posts.map Post.y).get? 258 = some 250 ∧
      (250 : Nat) ≠ 65532 + 254 := by
  have hdrop : tallWrapData.drop 12 = (List.replicate 259 [254, 0, 0, 0]).flatten ++ [255] := rfl
  have hfuel : tallWrapData.length + 1 = 259 + 790 + 1 := by decide
  obtain ⟨posts, hcol, hys⟩ := readColumn_run254 259 790 12 hfuel hdrop
  have hraw := rawPostYs_run254_fuel 259 790 12 hfuel hdrop
  have hbody := loadBody_single_column (l := ⟨"CEX", tallWrapData⟩)
    (show readU16 tallWrapData 0 = .ok (1, 2) from rfl)
    (show readU16 tallWrapData 2 = .ok (1, 4) from rfl)
    (show readI16 tallWrapData 4 = .ok (0, 6) from rfl)
    (show readI16 tallWrapData 6 = .ok (0, 8) from rfl)
    (show readColumnOffsets tallWrapData 8 1 = .ok ([12], 12) from rfl)
    hcol
  refine ⟨_, _, load_of_loadBody hbody, rfl, hraw, hys, by decide, ?_, ?_, by decide⟩
  · show (posts.map Post.y).get? 257 = some 65532
    rw [hys]
    decide
  · show (posts.map Post.y).get? 258 = some 250
    rw [hys]
    decide


/-! ### Patch table (`PatchBank::load`), from `src/assets/patch.rs` -/

/-- Models `u8::to_ascii_uppercase`, applied to every byte of a raw name. -/
def toUpperByte (b : Nat) : Nat :=
  if 97 ≤ b ∧ b ≤ 122 then b - 32 else b

/-- One byte of the lump-name character class `[A-Z0-9\[\]\-_\\]`
(`LUMP_NAME_REGEX` in `file.rs`). -/
def isNameByte (b : Nat) : Bool :=
  (65 ≤ b && b ≤ 90) || (48 ≤ b && b ≤ 57) ||
    b == 91 || b == 93 || b == 45 || b == 95 || b == 92

/-- Modelled from the spec: `Lump::read_raw_name` lives in the wad module,
which is not under `src/`.  Per §4.4/§4.1 it takes a fixed 8-byte raw name,
strips the trailing zero-byte padding (the name ends at the first zero byte,
as in the directory parser of `file.rs`), and validates the result against
the lump-name pattern `[A-Z0-9\[\]\-_\\]+`; a violation returns the raw
bytes as the error. -/
def readRawName (bytes : List Nat) : Except (List Nat) String :=
  let stripped := bytes.takeWhile (fun b => b ≠ 0)
  if stripped ≠ [] ∧ stripped.all isNameByte then
    .ok (String.mk (stripped.map Char.ofNat))
  else
    .error bytes

/-- Models `cursor.read_exact(&mut name)` for an 8-byte name buffer: the next eight
bytes, or `none` when fewer than eight remain. -/
def readPName (data : List Nat) (pos : Nat) : Option (List Nat) :=
  if pos + 8 ≤ data.length then some ((data.drop pos).take 8) else none

/-- The name loop of `PatchBank::load`: for each of `count` entries, read
the 8-byte raw name, uppercase it, validate it, resolve it through the
archive/stack lookup, and decode the patch.  The lookup `wad.lump(name)` is
abstracted as the function argument `wadLump` (the `Wad` stack type lives in
the wad module, not under `src/`). -/
def pbankLoop (wadLump : String → Except WadError Lump) (pn : Lump) :
    Nat → Nat → Except WadError (List Patch)
  | _, 0 => .ok []
  | pos, n + 1 =>
    match readPName pn.data pos with
    | none => .error (pn.error "bad patch list data")
    | some bytes =>
      match readRawName (bytes.map toUpperByte) with
      | .error raw => .error (pn.error ("contains bad lump name " ++ toString raw))
      | .ok name =>
        match wadLump name with
        | .error e => .error e
        | .ok l =>
          match Patch.load l with
          | .error e => .error e
          | .ok p =>
            match pbankLoop wadLump pn (pos + 8) n with
            | .error e => .error e
            | .ok rest => .ok (p :: rest)

/-- Models `PatchBank::load`: fetch the `PNAMES` lump, read its 4-byte count, then
run the name loop. -/
def PatchBank.load (wadLump : String → Except WadError Lump) :
    Except WadError (List Patch) :=
  match wadLump "PNAMES" with
  | .error e => .error e
  | .ok pn =>
    match readU32 pn.data 0 with
    | .error _ => .error (pn.error "bad patch list data")
    | .ok (count, pos) => pbankLoop wadLump pn pos count

theorem pbankLoop_ok {wadLump : String → Except WadError Lump} {pn : Lump} :
    ∀ {count pos patches}, pbankLoop wadLump pn pos count = .ok patches →
      patches.length = count ∧
      ∀ i < count, ∃ bytes name l p,
        readPName pn.data (pos + 8 * i) = some bytes ∧
        readRawName (bytes.map toUpperByte) = .ok name ∧
        wadLump name = .ok l ∧ Patch.load l = .ok p ∧
        patches.get? i = some p := by
  intro count
  induction count with
  | zero =>
    intro pos patches h
    simp only [pbankLoop] at h
    cases h
    exact ⟨rfl, fun i hi => absurd hi (by omega)⟩
  | succ n ih =>
    intro pos patches h
    simp only [pbankLoop] at h
    cases h1 : readPName pn.data pos with
    | none => rw [h1] at h; cases h
    | some bytes =>
      rw [h1] at h
      dsimp only at h
      cases h2 : readRawName (bytes.map toUpperByte) with
      | error raw => rw [h2] at h; cases h
      | ok name =>
        rw [h2] at h
        dsimp only at h
        cases h3 : wadLump name with
        | error e => rw [h3] at h; cases h
        | ok l =>
          rw [h3] at h
          dsimp only at h
          cases h4 : Patch.load l with
          | error e => rw [h4] at h; cases h
          | ok p =>
            rw [h4] at h
            dsimp only at h
            cases h5 : pbankLoop wadLump pn (pos + 8) n with
            | error e => rw [h5] at h; cases h
            | ok rest =>
              rw [h5] at h
              dsimp only at h
              cases h
              obtain ⟨hlen, hall⟩ := ih h5
              refine ⟨by simp [hlen], ?_⟩
              intro i hi
              cases i with
              | zero =>
                exact ⟨bytes, name, l, p, by simpa using h1, h2, h3, h4, rfl⟩
              | succ j =>
                obtain ⟨bs, nm, l2, p2, hb, hr, hw, hp2, hg⟩ := hall j (by omega)
                refine ⟨bs, nm, l2, p2, ?_, hr, hw, hp2, by simpa using hg⟩
                have harith : pos + 8 + 8 * j = pos + 8 * (j + 1) := by omega
                rw [← harith]
                exact hb

/-- C8: for every source, the Patch Table loader case-folds every 8-byte
entry of the `PNAMES` lump to uppercase before validating it against the
lump-name pattern and before lookup, fails `Malformed` naming the bad bytes
on a name that violates the pattern, and on success produces a list whose
length and order match the name-list lump exactly — entry `i` being the
decoded patch for (uppercased, validated) name `i`. -/
theorem claim8_patch_bank (wadLump : String → Except WadError Lump) :
    (∀ patches, PatchBank.load wadLump = .ok patches →
      ∃ pn count pos, wadLump "PNAMES" = .ok pn ∧
        readU32 pn.data 0 = .ok (count, pos) ∧
        patches.length = count ∧
        ∀ i < count, ∃ bytes name l p,
          readPName pn.data (pos + 8 * i) = some bytes ∧
          readRawName (bytes.map toUpperByte) = .ok name ∧
          wadLump name = .ok l ∧ Patch.load l = .ok p ∧
          patches.get? i = some p) ∧
    (∀ pn count pos bytes raw, wadLump "PNAMES" = .ok pn →
      readU32 pn.data 0 = .ok (count, pos) → 1 ≤ count →
      readPName pn.data pos = some bytes →
      readRawName (bytes.map toUpperByte) = .error raw →
      PatchBank.load wadLump =
        .error (pn.error ("contains bad lump name " ++ toString raw))) := by
  constructor
  · intro patches h
    unfold PatchBank.load at h
    cases h0 : wadLump "PNAMES" with
    | error e => rw [h0] at h; cases h
    | ok pn =>
      rw [h0] at h
      dsimp only at h
      cases h1 : readU32 pn.data 0 with
      | error e => rw [h1] at h; cases h
      | ok cp =>
        obtain ⟨count, pos⟩ := cp
        rw [h1] at h
        dsimp only at h
        obtain ⟨hlen, hall⟩ := pbankLoop_ok h
        exact ⟨pn, count, pos, rfl, h1, hlen, hall⟩
  · intro pn count pos bytes raw h0 h1 hc hb hr
    unfold PatchBank.load
    rw [h0]
    dsimp only
    rw [h1]
    dsimp only
    cases count with
    | zero => omega
    | succ n => simp only [pbankLoop, hb, hr]

/-- The lookup function of the C8 witness: a `PNAMES` lump listing the
single lowercase-stored name `w94_1`, and the empty picture lump `W94_1`
(width 0) it must resolve to after case-folding. -/
def pnamesLookupEx : String → Except WadError Lump := fun n =>
  if n = "PNAMES" then .ok ⟨"PNAMES", [1, 0, 0, 0, 119, 57, 52, 95, 49, 0, 0, 0]⟩
  else if n = "W94_1" then .ok ⟨"W94_1", [0, 0, 0, 0, 0, 0, 0, 0]⟩
  else .error (.malformed "p" (n ++ " missing"))

/-- C8 witness: the lowercase-stored `w94_1` entry resolves (uppercased) to
the `W94_1` lump and the loaded table is its one decoded patch, satisfying
the per-entry correspondence. -/
theorem claim8_witness :
    PatchBank.load pnamesLookupEx = .ok [⟨"W94_1", 0, 0, 0, 0, []⟩] ∧
    ∃ pn count pos, pnamesLookupEx "PNAMES" = .ok pn ∧
      readU32 pn.data 0 = .ok (count, pos) ∧
      ([(⟨"W94_1", 0, 0, 0, 0, []⟩ : Patch)]).length = count ∧
      ∀ i < count, ∃ bytes name l p,
        readPName pn.data (pos + 8 * i) = some bytes ∧
        readRawName (bytes.map toUpperByte) = .ok name ∧
        pnamesLookupEx name = .ok l ∧ Patch.load l = .ok p ∧
        ([(⟨"W94_1", 0, 0, 0, 0, []⟩ : Patch)]).get? i = some p :=
  ⟨rfl, (claim8_patch_bank pnamesLookupEx).1 [⟨"W94_1", 0, 0, 0, 0, []⟩] rfl⟩

section SanityChecks

example :
    WadFile.lump ⟨"p", [⟨"A", [1]⟩, ⟨"B", [2]⟩]⟩ "B" = .ok ⟨"B", [2]⟩ := rfl

example :
    WadFile.lump ⟨"p", [⟨"A", [1]⟩, ⟨"A", [2]⟩]⟩ "A" =
      .error (.malformed "p" "A found 2 times") := rfl

example :
    WadFile.lumpsFollowing ⟨"p", [⟨"M", []⟩, ⟨"A", [1]⟩]⟩ "M" 1 =
      .ok [⟨"M", []⟩] := rfl

example :
    WadFile.tryLumpsBetween ⟨"p", [⟨"S", []⟩, ⟨"A", [1]⟩, ⟨"E", []⟩]⟩ "S" "E" =
      .ok (some [⟨"S", []⟩, ⟨"A", [1]⟩, ⟨"E", []⟩]) := rfl

example :
    WadFile.lumpsBetween ⟨"p", [⟨"S", []⟩, ⟨"E", []⟩]⟩ "E" "S" =
      .error (.malformed "p" "E after S") := rfl

example :
    Patch.load ⟨"W", [1, 0, 5, 0, 0, 0, 0, 0, 12, 0, 0, 0, 10, 2, 9, 7, 8, 9, 255]⟩ =
      .ok ⟨"W", 1, 5, 0, 0, [⟨[⟨10, [7, 8]⟩]⟩]⟩ := rfl

example : Patch.load ⟨"W", [1, 0]⟩ = .error (.malformedLump "W" "bad patch data") := rfl

-- Tall patch: second post raw 3 ≤ first resolved 10 resolves to 13.
example :
    Patch.load ⟨"W", [1, 0, 1, 0, 0, 0, 0, 0, 12, 0, 0, 0, 10, 0, 9, 9, 3, 0, 9, 9, 255]⟩ =
      .ok ⟨"W", 1, 1, 0, 0, [⟨[⟨10, []⟩, ⟨13, []⟩]⟩]⟩ := rfl

example : rawPostYs 20 [10, 0, 9, 9, 3, 0, 9, 9, 255] 0 = .ok [10, 3] := rfl

example : resolveFrom none [10, 3] = [10, 13] := rfl

end SanityChecks
